import Mathlib

/-!
Verification of the IANA language-subtag-registry parser (`parser.go`).

Strings are modelled at the byte level as `List Nat` (each element one byte
of the Go string), because the Go code measures lengths in bytes
(`len(v)`) and indexes bytes (`v[i]`).  All string literals used by the
program are ASCII, so `strB` below converts a Lean string literal to its
byte list by taking the code point of each character.
-/

set_option autoImplicit false

namespace IanaRegistry

/-- Byte list of an ASCII string literal (code point of each character). -/
def strB (s : String) : List Nat :=
  s.data.map (fun c => c.toNat)

/-- Model of Go `strings.ToLower` on the ASCII bytes a field name can hold. -/
def toLowerB (bs : List Nat) : List Nat :=
  bs.map (fun b => if 65 ≤ b ∧ b ≤ 90 then b + 32 else b)

/-- Model of Go `strings.Trim(row, " ")`: remove leading and trailing
space bytes (0x20) only. -/
def trimSpaces (bs : List Nat) : List Nat :=
  ((bs.dropWhile (fun b => b == 32)).reverse.dropWhile (fun b => b == 32)).reverse

/-- A byte allowed in a field name by the regexp
`PropRowRx = ^((?:-|[[:alpha:]])+): (.+)$`: a hyphen or an ASCII letter. -/
def isNameByte (b : Nat) : Bool :=
  b = 45 ∨ (65 ≤ b ∧ b ≤ 90) ∨ (97 ≤ b ∧ b ≤ 122)

/-- Model of `PropRowRx.FindStringSubmatch(row)` on one line (no newline
inside).  The greedy name group is forced to be the maximal leading run of
name bytes (a name byte is never a colon, so backtracking cannot shorten
it); the match succeeds when that run is non-empty, is followed by the two
bytes of the literal string of a colon and a space, and at least one byte
remains for the greedy final group. -/
def propRowRx (row : List Nat) : Option (List Nat × List Nat) :=
  if row.takeWhile isNameByte ≠ [] ∧ (row.dropWhile isNameByte).take 2 = [58, 32] ∧
      (row.dropWhile isNameByte).drop 2 ≠ [] then
    some (row.takeWhile isNameByte, (row.dropWhile isNameByte).drop 2)
  else
    none

/-- Model of Go `strings.Split(bs, "\n")` (separator one newline byte). -/
def splitNL : List Nat → List (List Nat)
  | [] => [[]]
  | b :: rest =>
    if b = 10 then [] :: splitNL rest
    else
      match splitNL rest with
      | [] => [[b]]
      | r :: rs => (b :: r) :: rs

/-- The lexed mapping: keys in order of first appearance, each with its
ordered list of raw values.  Go uses a hash map here; the association list
keeps insertion order, which is immaterial to the program (record parsing
reads each key independently). -/
abbrev LexMap := List (List Nat × List (List Nat))

/-- Model of `m[k] = append(m[k], v)` on the association list. -/
def mapAppend (m : LexMap) (k : List Nat) (v : List Nat) : LexMap :=
  match m with
  | [] => [(k, [v])]
  | (k', vs) :: rest =>
    if k' = k then (k', vs ++ [v]) :: rest else (k', vs) :: mapAppend rest k v

/-- Model of `fd, ok := m[k]` (the two-valued map read). -/
def mapFind (m : LexMap) (k : List Nat) : Option (List (List Nat)) :=
  match m with
  | [] => none
  | (k', vs) :: rest => if k' = k then some vs else mapFind rest k

/-- The loop body of `lexBlock`: `ck`/`cv` are the current key and current
accumulated value, `m` the map built so far. -/
def lexLoop (rows : List (List Nat)) (ck cv : List Nat) (m : LexMap) : LexMap :=
  match rows with
  | [] => if ck ≠ [] then mapAppend m ck cv else m
  | row :: rest =>
    if row = [] then lexLoop rest ck cv m
    else
      match propRowRx row with
      | some (nk, nv) =>
        lexLoop rest (toLowerB nk) nv (if ck ≠ [] then mapAppend m ck cv else m)
      | none => lexLoop rest ck (cv ++ 32 :: trimSpaces row) m

/-- Model of `lexBlock`: split on newlines, then run the loop with empty
current key, current value and map. -/
def lexBlock (bs : List Nat) : LexMap :=
  lexLoop (splitNL bs) [] [] []

/-- The fatal conditions of the parser, one per `log.Fatalf` family in the
source: the multiplicity check shared by `parseDate`, `parseScript` and
`parseString`; the date-format failure of `parseDate`; the length-4 check of
`parseScript`; the unknown-key default of `parseBlock`; and the missing
file-date check of `initRegistry`. -/
inductive ParseErr where
  | multiplicity (k : List Nat) (n : Nat)
  | malformedDate (k : List Nat) (v : List Nat)
  | invalidScript (k : List Nat) (v : List Nat)
  | unknownField (k : List Nat)
  | malformedHeader
deriving DecidableEq

/-- Calendar date, the `Date` wrapper around `time.Time` restricted to the
fields the program uses (the parse layout has no clock components, so a
parsed `time.Time` is determined by year, month and day). -/
structure Date where
  year : Nat
  month : Nat
  day : Nat
deriving DecidableEq

/-- The zero `time.Time` is January 1 of year 1; `Date.IsZero` holds
exactly there. -/
def Date.zero : Date := ⟨1, 1, 1⟩

/-- Model of `Date.IsZero`. -/
def Date.isZero (d : Date) : Bool := d = Date.zero

/-- Go leap-year rule used by `time.Parse` when range-checking the day. -/
def isLeap (y : Nat) : Bool :=
  y % 4 = 0 ∧ (y % 100 ≠ 0 ∨ y % 400 = 0)

/-- Days in a month, as `time.Parse` range-checks the day of the month. -/
def daysIn (y m : Nat) : Nat :=
  if m = 2 then (if isLeap y then 29 else 28)
  else if m = 4 ∨ m = 6 ∨ m = 9 ∨ m = 11 then 30
  else 31

/-- ASCII decimal digit byte. -/
def isDigit (b : Nat) : Bool := 48 ≤ b ∧ b ≤ 57

/-- Numeric value of a digit byte. -/
def digitVal (b : Nat) : Nat := b - 48

/-- Model of Go `time.Parse("2006-01-02", v)`: exactly ten bytes, four
digits of the year, a hyphen, two digits of the month, a hyphen, two digits
of the day, nothing after; the month must lie in 1..12 and the day in
1..daysIn. -/
def goParseDate (v : List Nat) : Option Date :=
  match v with
  | [y1, y2, y3, y4, s1, m1, m2, s2, d1, d2] =>
    if isDigit y1 ∧ isDigit y2 ∧ isDigit y3 ∧ isDigit y4 ∧ s1 = 45 ∧
        isDigit m1 ∧ isDigit m2 ∧ s2 = 45 ∧ isDigit d1 ∧ isDigit d2 then
      let y := digitVal y1 * 1000 + digitVal y2 * 100 + digitVal y3 * 10 + digitVal y4
      let mo := digitVal m1 * 10 + digitVal m2
      let d := digitVal d1 * 10 + digitVal d2
      if 1 ≤ mo ∧ mo ≤ 12 ∧ 1 ≤ d ∧ d ≤ daysIn y mo then some ⟨y, mo, d⟩
      else none
    else none
  | _ => none

/-- Model of `parseDate(k, vs)`: the shared multiplicity check, then the
`time.Parse` call. -/
def parseDate (k : List Nat) (vs : List (List Nat)) : Except ParseErr Date :=
  match vs with
  | [v] =>
    match goParseDate v with
    | some d => .ok d
    | none => .error (.malformedDate k v)
  | _ => .error (.multiplicity k vs.length)

/-- Script, the `[4]rune` fixed array; each rune is stored as its code
point.  `parseScript` only ever stores byte values (0..255). -/
structure Script where
  r0 : Nat
  r1 : Nat
  r2 : Nat
  r3 : Nat
deriving DecidableEq

/-- The zero `Script` value (`var zero Script`). -/
def Script.zero : Script := ⟨0, 0, 0, 0⟩

/-- Model of `Script.IsZero`. -/
def Script.isZero (s : Script) : Bool := s = Script.zero

/-- Model of `Script.MarshalYAML`: each rune truncated to a byte
(`byte(s[i])` keeps the low 8 bits), collected into a 4-byte string. -/
def Script.marshal (s : Script) : List Nat :=
  [s.r0 % 256, s.r1 % 256, s.r2 % 256, s.r3 % 256]

/-- Model of `parseScript(k, vs)`: the multiplicity check, then the byte
length of the single value must be exactly 4; each byte becomes one rune
(`rune(v[i])`).  No further check is made on the byte values. -/
def parseScript (k : List Nat) (vs : List (List Nat)) : Except ParseErr Script :=
  match vs with
  | [v] =>
    match v with
    | [a, b, c, d] => .ok ⟨a, b, c, d⟩
    | _ => .error (.invalidScript k v)
  | _ => .error (.multiplicity k vs.length)

/-- Model of `parseString(k, vs)`: the multiplicity check, then the raw
value passed through unchanged. -/
def parseString (k : List Nat) (vs : List (List Nat)) : Except ParseErr (List Nat) :=
  match vs with
  | [v] => .ok v
  | _ => .error (.multiplicity k vs.length)

/-- The `Entry` struct.  The Go field `Prefix` is named `prefixes` here
because its name is a reserved word in Lean; `typ` likewise stands for the
Go field `Type`. -/
structure Entry where
  added : Date
  comments : List Nat
  deprecated : Date
  description : List (List Nat)
  macroLanguage : List Nat
  preferredValue : List Nat
  prefixes : List (List Nat)
  scope : List Nat
  subtag : List Nat
  suppressScript : Script
  tag : List Nat
  typ : List Nat
deriving DecidableEq

/-- The zero `Entry` built by `e := &Entry{}`. -/
def Entry.zero : Entry :=
  ⟨Date.zero, [], Date.zero, [], [], [], [], [], [], Script.zero, [], []⟩

/-- One iteration of the `parseBlock` switch: dispatch on the lexed key and
update the corresponding field of the entry. -/
def applyField (e : Entry) (k : List Nat) (vs : List (List Nat)) : Except ParseErr Entry :=
  if k = strB "added" then (parseDate k vs).map (fun d => { e with added := d })
  else if k = strB "comments" then (parseString k vs).map (fun v => { e with comments := v })
  else if k = strB "deprecated" then (parseDate k vs).map (fun d => { e with deprecated := d })
  else if k = strB "description" then .ok { e with description := vs }
  else if k = strB "macrolanguage" then
    (parseString k vs).map (fun v => { e with macroLanguage := v })
  else if k = strB "preferred-value" then
    (parseString k vs).map (fun v => { e with preferredValue := v })
  else if k = strB "prefix" then .ok { e with prefixes := vs }
  else if k = strB "scope" then (parseString k vs).map (fun v => { e with scope := v })
  else if k = strB "subtag" then (parseString k vs).map (fun v => { e with subtag := v })
  else if k = strB "suppress-script" then
    (parseScript k vs).map (fun s => { e with suppressScript := s })
  else if k = strB "tag" then (parseString k vs).map (fun v => { e with tag := v })
  else if k = strB "type" then (parseString k vs).map (fun v => { e with typ := v })
  else .error (.unknownField k)

/-- One step of the `parseBlock` loop: on an already-fatal state keep the
fatal state (Go has exited), else apply the switch to the next key. -/
def parseStep (acc : Except ParseErr Entry) (kvs : List Nat × List (List Nat)) :
    Except ParseErr Entry :=
  acc.bind (fun e => applyField e kvs.1 kvs.2)

/-- Model of `parseBlock(lexed)`: fold the switch over the lexed entries.
Go iterates the map in unspecified order; the fold follows insertion
order, which changes neither the entry produced nor whether some fatal
condition is met, since distinct keys touch distinct fields. -/
def parseBlock (lexed : LexMap) : Except ParseErr Entry :=
  lexed.foldl parseStep (.ok Entry.zero)

/-- The ten field names the parser requires to carry exactly one raw
value (every recognized field except description and prefix). -/
def singleValuedKeys : List (List Nat) :=
  [strB "added", strB "deprecated", strB "comments", strB "macrolanguage",
   strB "preferred-value", strB "scope", strB "subtag", strB "suppress-script",
   strB "tag", strB "type"]

/-- The seven scalar string fields (single-valued, passed through
unchanged by `parseString`). -/
def scalarStringKeys : List (List Nat) :=
  [strB "comments", strB "macrolanguage", strB "preferred-value", strB "scope",
   strB "subtag", strB "tag", strB "type"]

/-- Projection of the entry field a scalar string key dispatches to,
mirroring the switch of `parseBlock`. -/
def scalarField (k : List Nat) (e : Entry) : Option (List Nat) :=
  if k = strB "comments" then some e.comments
  else if k = strB "macrolanguage" then some e.macroLanguage
  else if k = strB "preferred-value" then some e.preferredValue
  else if k = strB "scope" then some e.scope
  else if k = strB "subtag" then some e.subtag
  else if k = strB "tag" then some e.tag
  else if k = strB "type" then some e.typ
  else none

/-- The twelve field names of the `parseBlock` switch, in branch order. -/
def recognizedKeys : List (List Nat) :=
  [strB "added", strB "comments", strB "deprecated", strB "description",
   strB "macrolanguage", strB "preferred-value", strB "prefix", strB "scope",
   strB "subtag", strB "suppress-script", strB "tag", strB "type"]

/-- The `Registry` struct (file date only; entries are appended by `main`
after `initRegistry` returns). -/
structure Registry where
  fileDate : Date
deriving DecidableEq

/-- Model of `initRegistry(bss)`: lex the first block, require the
`file-date` key, and parse its values as a date.  (On an empty block list
the Go code panics on the index; that case is modelled as the same fatal
outcome.) -/
def initRegistry (bss : List (List Nat)) : Except ParseErr Registry :=
  match bss with
  | [] => .error .malformedHeader
  | first :: _ =>
    match mapFind (lexBlock first) (strB "file-date") with
    | none => .error .malformedHeader
    | some fd => (parseDate (strB "file-date") fd).map (fun d => ⟨d⟩)

/-- The block separator of `loadBlocks`: `sep = []byte{'\n','%','%','\n'}`. -/
def sepB : List Nat := [10, 37, 37, 10]

/-- Index of the first occurrence of `sepB` in the data, the
`bytes.Index(data, sep)` of the scanner split function. -/
def firstSepIdx : List Nat → Option Nat
  | [] => none
  | b :: rest =>
    if sepB.isPrefixOf (b :: rest) then some 0
    else (firstSepIdx rest).map (· + 1)

/-- Model of the block-splitting loop of `loadBlocks` on the full byte
sequence: the scanner split function repeatedly finds the first occurrence
of the separator, emits the bytes before it plus its leading newline
(`token = data[:index+1]`), and skips the whole separator
(`advance = index + len(sep)`); at end of data the remainder, possibly
empty, is emitted as one final token (`bufio.ErrFinalToken`). -/
def loadBlocks (data : List Nat) : List (List Nat) :=
  match h : firstSepIdx data with
  | some i => data.take (i + 1) :: loadBlocks (data.drop (i + 4))
  | none => [data]
termination_by data.length
decreasing_by
  have hex : ∀ (l1 l2 : List Nat), l1.isPrefixOf l2 = true → l1.length ≤ l2.length := by
    intro l1
    induction l1 with
    | nil => intro l2 h2; exact Nat.zero_le _
    | cons a t1 ih =>
      intro l2 h2
      cases l2 with
      | nil => exact Bool.noConfusion h2
      | cons b t2 =>
        rw [List.isPrefixOf, Bool.and_eq_true] at h2
        have := ih t2 h2.2
        simp only [List.length_cons]
        omega
  have hb : ∀ (d : List Nat) (j : Nat), firstSepIdx d = some j → j + 4 ≤ d.length := by
    intro d
    induction d with
    | nil => intro j hj; exact Option.noConfusion hj
    | cons b rest ih =>
      intro j hj
      rw [firstSepIdx] at hj
      by_cases hp : sepB.isPrefixOf (b :: rest) = true
      · rw [if_pos hp] at hj
        injection hj with hj'
        subst hj'
        have hle := hex sepB (b :: rest) hp
        have h4 : sepB.length = 4 := rfl
        simp only [List.length_cons] at hle ⊢
        omega
      · rw [if_neg hp] at hj
        cases hk : firstSepIdx rest with
        | none => rw [hk] at hj; exact Option.noConfusion hj
        | some k2 =>
          rw [hk] at hj
          injection hj with hj'
          subst hj'
          have := ih k2 hk
          simp only [List.length_cons, Option.map_some']
          omega
  have := hb data _ h
  simp only [List.length_drop]
  omega

/-- The splitter as the spec's sentence describes it, for comparison with
the code model: each emitted block is the text strictly between
consecutive separators, the separator being part of no block; the
remainder after the last separator (or the whole input) is the final
block. -/
def splitClaim (data : List Nat) : List (List Nat) :=
  match h : firstSepIdx data with
  | some i => data.take i :: splitClaim (data.drop (i + 4))
  | none => [data]
termination_by data.length
decreasing_by
  have hex : ∀ (l1 l2 : List Nat), l1.isPrefixOf l2 = true → l1.length ≤ l2.length := by
    intro l1
    induction l1 with
    | nil => intro l2 h2; exact Nat.zero_le _
    | cons a t1 ih =>
      intro l2 h2
      cases l2 with
      | nil => exact Bool.noConfusion h2
      | cons b t2 =>
        rw [List.isPrefixOf, Bool.and_eq_true] at h2
        have := ih t2 h2.2
        simp only [List.length_cons]
        omega
  have hb : ∀ (d : List Nat) (j : Nat), firstSepIdx d = some j → j + 4 ≤ d.length := by
    intro d
    induction d with
    | nil => intro j hj; exact Option.noConfusion hj
    | cons b rest ih =>
      intro j hj
      rw [firstSepIdx] at hj
      by_cases hp : sepB.isPrefixOf (b :: rest) = true
      · rw [if_pos hp] at hj
        injection hj with hj'
        subst hj'
        have hle := hex sepB (b :: rest) hp
        have h4 : sepB.length = 4 := rfl
        simp only [List.length_cons] at hle ⊢
        omega
      · rw [if_neg hp] at hj
        cases hk : firstSepIdx rest with
        | none => rw [hk] at hj; exact Option.noConfusion hj
        | some k2 =>
          rw [hk] at hj
          injection hj with hj'
          subst hj'
          have := ih k2 hk
          simp only [List.length_cons, Option.map_some']
          omega
  have := hb data _ h
  simp only [List.length_drop]
  omega

/-- Append a newline byte to every block except the last one. -/
def appendNLButLast : List (List Nat) → List (List Nat)
  | [] => []
  | [b] => [b]
  | b :: c :: rest => (b ++ [10]) :: appendNLButLast (c :: rest)

/-- Presence of a named field in the serialized form of one entry,
modelled from the yaml struct tags of `Entry` and the omitempty rule of
gopkg.in/yaml.v3: a field tagged `omitempty` is skipped when its value is
zero (empty string or slice, or `IsZero()` for the `Date` and `Script`
types); the `added` field carries no `omitempty` and is always rendered. -/
def renders (e : Entry) (name : List Nat) : Bool :=
  if name = strB "added" then true
  else if name = strB "comments" then e.comments != []
  else if name = strB "deprecated" then !e.deprecated.isZero
  else if name = strB "description" then e.description != []
  else if name = strB "macro-language" then e.macroLanguage != []
  else if name = strB "preferred-value" then e.preferredValue != []
  else if name = strB "prefix" then e.prefixes != []
  else if name = strB "scope" then e.scope != []
  else if name = strB "subtag" then e.subtag != []
  else if name = strB "suppress-script" then !e.suppressScript.isZero
  else if name = strB "tag" then e.tag != []
  else if name = strB "type" then e.typ != []
  else false

/-- Join rows with single newline bytes, the inverse of `splitNL` on rows
that hold no newline. -/
def joinNL : List (List Nat) → List Nat
  | [] => []
  | [r] => r
  | r :: s :: rest => r ++ 10 :: joinNL (s :: rest)

/-- The bytes a sequence of continuation lines contributes to the current
value: for each line, one separating space then the space-trimmed line. -/
def contJoin (cs : List (List Nat)) : List Nat :=
  (cs.map (fun c => 32 :: trimSpaces c)).flatten

/-- Whitespace byte (tab, newline, vertical tab, form feed, carriage
return, space), for the claim's reading of continuation trimming. -/
def isWS (b : Nat) : Bool :=
  b = 9 ∨ b = 10 ∨ b = 11 ∨ b = 12 ∨ b = 13 ∨ b = 32

/-- Trim leading and trailing whitespace, as the claim's sentence reads
the continuation-line trimming. -/
def trimWS (bs : List Nat) : List Nat :=
  ((bs.dropWhile isWS).reverse.dropWhile isWS).reverse

/-- The lexer loop as the claim's sentence describes it, for comparison
with the code model: identical to `lexLoop` except that a continuation
line is trimmed of all leading and trailing whitespace rather than of
spaces only. -/
def lexLoopWS (rows : List (List Nat)) (ck cv : List Nat) (m : LexMap) : LexMap :=
  match rows with
  | [] => if ck ≠ [] then mapAppend m ck cv else m
  | row :: rest =>
    if row = [] then lexLoopWS rest ck cv m
    else
      match propRowRx row with
      | some (nk, nv) =>
        lexLoopWS rest (toLowerB nk) nv (if ck ≠ [] then mapAppend m ck cv else m)
      | none => lexLoopWS rest ck (cv ++ 32 :: trimWS row) m

/-- The field lexer as the claim's sentence describes it. -/
def lexBlockWS (bs : List Nat) : LexMap :=
  lexLoopWS (splitNL bs) [] [] []

/-- Header parsing as the claim's sentence reads it, for comparison with
the code model: the lexed first block must contain exactly the file-date
field and nothing else; any other field is the fatal malformed-header
condition. -/
def initRegistryClaim (bss : List (List Nat)) : Except ParseErr Registry :=
  match bss with
  | [] => .error .malformedHeader
  | first :: _ =>
    match lexBlock first with
    | [(k, vs)] =>
      if k = strB "file-date" then (parseDate (strB "file-date") vs).map (fun d => ⟨d⟩)
      else .error .malformedHeader
    | _ => .error .malformedHeader

/-- The Script decoder as the claim's sentence reads it, for comparison
with the code model: the single raw value must be exactly 4 characters all
in the ASCII range (for ASCII data, 4 bytes each below 128). -/
def parseScriptClaim (k : List Nat) (vs : List (List Nat)) : Except ParseErr Script :=
  match vs with
  | [v] =>
    if v.length = 4 ∧ ∀ b ∈ v, b < 128 then
      match v with
      | [a, b, c, d] => .ok ⟨a, b, c, d⟩
      | _ => .error (.invalidScript k v)
    else .error (.invalidScript k v)
  | _ => .error (.multiplicity k vs.length)

theorem isPrefixOf_append_ex (l1 l2 : List Nat) (h : l1.isPrefixOf l2 = true) :
    ∃ t, l2 = l1 ++ t := by
  induction l1 generalizing l2 with
  | nil => exact ⟨l2, rfl⟩
  | cons a t1 ih =>
    cases l2 with
    | nil => exact Bool.noConfusion h
    | cons b t2 =>
      rw [List.isPrefixOf, Bool.and_eq_true] at h
      obtain ⟨t, rfl⟩ := ih t2 h.2
      have hab : a = b := eq_of_beq h.1
      subst hab
      exact ⟨t, rfl⟩

theorem firstSepIdx_sound (data : List Nat) (i : Nat)
    (h : firstSepIdx data = some i) : sepB.isPrefixOf (data.drop i) := by
  induction data generalizing i with
  | nil => simp [firstSepIdx] at h
  | cons b rest ih =>
    rw [firstSepIdx] at h
    by_cases hp : sepB.isPrefixOf (b :: rest)
    · rw [if_pos hp] at h
      cases h
      simpa using hp
    · rw [if_neg hp] at h
      cases hj : firstSepIdx rest with
      | none => rw [hj] at h; simp at h
      | some j =>
        rw [hj] at h
        simp only [Option.map_some', Option.some.injEq] at h
        subst h
        simpa using ih j hj

theorem firstSepIdx_le (data : List Nat) (i : Nat)
    (h : firstSepIdx data = some i) : i + 4 ≤ data.length := by
  have hp := firstSepIdx_sound data i h
  obtain ⟨t, ht⟩ := isPrefixOf_append_ex sepB (data.drop i) hp
  have hlen : (data.drop i).length = sepB.length + t.length := by
    rw [ht, List.length_append]
  have h4 : sepB.length = 4 := rfl
  simp only [List.length_drop] at hlen
  omega

theorem loadBlocks_sep (data : List Nat) (i : Nat) (h : firstSepIdx data = some i) :
    loadBlocks data = data.take (i + 1) :: loadBlocks (data.drop (i + 4)) := by
  rw [loadBlocks.eq_def]
  split
  · rename_i i' h'
    rw [h] at h'
    cases h'
    rfl
  · rename_i h'
    rw [h] at h'
    cases h'

theorem loadBlocks_none (data : List Nat) (h : firstSepIdx data = none) :
    loadBlocks data = [data] := by
  rw [loadBlocks.eq_def]
  split
  · rename_i i' h'
    rw [h] at h'
    cases h'
  · rfl

theorem splitClaim_sep (data : List Nat) (i : Nat) (h : firstSepIdx data = some i) :
    splitClaim data = data.take i :: splitClaim (data.drop (i + 4)) := by
  rw [splitClaim.eq_def]
  split
  · rename_i i' h'
    rw [h] at h'
    cases h'
    rfl
  · rename_i h'
    rw [h] at h'
    cases h'

theorem splitClaim_none (data : List Nat) (h : firstSepIdx data = none) :
    splitClaim data = [data] := by
  rw [splitClaim.eq_def]
  split
  · rename_i i' h'
    rw [h] at h'
    cases h'
  · rfl

theorem splitClaim_ne_nil (data : List Nat) : splitClaim data ≠ [] := by
  cases h : firstSepIdx data with
  | some i => rw [splitClaim_sep data i h]; simp
  | none => rw [splitClaim_none data h]; simp

theorem loadBlocks_eq_appendNL (data : List Nat) :
    loadBlocks data = appendNLButLast (splitClaim data) := by
  cases h : firstSepIdx data with
  | none =>
    rw [loadBlocks_none data h, splitClaim_none data h]
    rfl
  | some i =>
    rw [loadBlocks_sep data i h, splitClaim_sep data i h]
    have ih := loadBlocks_eq_appendNL (data.drop (i + 4))
    obtain ⟨x, xs, hx⟩ := List.exists_cons_of_ne_nil (splitClaim_ne_nil (data.drop (i + 4)))
    rw [hx] at ih ⊢
    rw [appendNLButLast, ← ih]
    obtain ⟨t, ht⟩ := isPrefixOf_append_ex sepB (data.drop i) (firstSepIdx_sound data i h)
    have hi : data[i]? = some 10 := by
      have hlen := firstSepIdx_le data i h
      rw [List.getElem?_eq_getElem (by omega)]
      have : (data.drop i)[0]? = some 10 := by
        rw [ht]; rfl
      rw [List.getElem?_drop] at this
      simp only [Nat.add_zero] at this
      rw [List.getElem?_eq_getElem (by omega)] at this
      simpa using this
    rw [List.take_succ, hi]
    rfl
termination_by data.length
decreasing_by
  simp only [List.length_drop]
  have := firstSepIdx_le data _ h
  omega

theorem splitNL_no_newline (r : List Nat) (h : 10 ∉ r) : splitNL r = [r] := by
  induction r with
  | nil => rfl
  | cons b t ih =>
    have hb : ¬ b = 10 := fun hb => h (by simp [hb])
    have ht : 10 ∉ t := fun hm => h (List.mem_cons_of_mem _ hm)
    rw [splitNL, if_neg hb, ih ht]

theorem splitNL_append (r t : List Nat) (h : 10 ∉ r) :
    splitNL (r ++ 10 :: t) = r :: splitNL t := by
  induction r with
  | nil => simp [splitNL]
  | cons b s ih =>
    have hb : ¬ b = 10 := fun hb => h (by simp [hb])
    have hs : 10 ∉ s := fun hm => h (List.mem_cons_of_mem _ hm)
    rw [List.cons_append, splitNL, if_neg hb, ih hs]

theorem splitNL_joinNL (rows : List (List Nat)) (hne : rows ≠ [])
    (h : ∀ r ∈ rows, 10 ∉ r) : splitNL (joinNL rows) = rows := by
  induction rows with
  | nil => exact absurd rfl hne
  | cons r rest ih =>
    cases rest with
    | nil => exact splitNL_no_newline r (h r (by simp))
    | cons s rest' =>
      rw [joinNL, splitNL_append _ _ (h r (by simp))]
      rw [ih (by simp) (fun x hx => h x (List.mem_cons_of_mem _ hx))]

theorem propRowRx_some (row nk nv : List Nat) (h : propRowRx row = some (nk, nv)) :
    row ≠ [] ∧ nk ≠ [] := by
  unfold propRowRx at h
  by_cases hc : row.takeWhile isNameByte ≠ [] ∧
      (row.dropWhile isNameByte).take 2 = [58, 32] ∧
      (row.dropWhile isNameByte).drop 2 ≠ []
  · rw [if_pos hc] at h
    have hk : nk = row.takeWhile isNameByte := by
      cases h; rfl
    refine ⟨?_, ?_⟩
    · intro hrow
      apply hc.1
      rw [hrow]
      rfl
    · rw [hk]; exact hc.1
  · rw [if_neg hc] at h
    cases h

theorem toLowerB_ne_nil (l : List Nat) (h : l ≠ []) : toLowerB l ≠ [] := by
  cases l with
  | nil => exact absurd rfl h
  | cons b t => simp [toLowerB]

/-- The continuation step of `lexLoop` over a run of non-matching,
non-empty rows: each row contributes one separating space and its
space-trimmed content to the current value, which is flushed to the map
when the block ends. -/
theorem lexLoop_conts (cs : List (List Nat)) (ck cv : List Nat) (m : LexMap)
    (hck : ck ≠ []) (hcs : ∀ c ∈ cs, c ≠ [] ∧ propRowRx c = none) :
    lexLoop cs ck cv m = mapAppend m ck (cv ++ contJoin cs) := by
  induction cs generalizing cv with
  | nil => simp [lexLoop, contJoin, hck]
  | cons c cs ih =>
    obtain ⟨hc1, hc2⟩ := hcs c (by simp)
    rw [lexLoop, if_neg (by exact hc1), hc2]
    rw [ih _ (fun x hx => hcs x (List.mem_cons_of_mem _ hx))]
    have : cv ++ 32 :: trimSpaces c ++ contJoin cs = cv ++ contJoin (c :: cs) := by
      simp [contJoin]
    rw [this]

theorem takeWhile_name_run (name t : List Nat) (h : ∀ b ∈ name, isNameByte b) :
    (name ++ 58 :: t).takeWhile isNameByte = name ∧
    (name ++ 58 :: t).dropWhile isNameByte = 58 :: t := by
  induction name with
  | nil =>
    have h58 : isNameByte 58 = false := by decide
    constructor
    · rw [List.nil_append, List.takeWhile_cons, h58]
      rfl
    · rw [List.nil_append, List.dropWhile_cons, h58]
      rfl
  | cons a name ih =>
    have ha : isNameByte a = true := h a (by simp)
    obtain ⟨ih1, ih2⟩ := ih (fun b hb => h b (List.mem_cons_of_mem _ hb))
    constructor
    · rw [List.cons_append, List.takeWhile_cons, ha]
      simp only [ih1]
      rfl
    · rw [List.cons_append, List.dropWhile_cons, ha]
      simpa using ih2

theorem trimSpaces_name_colon (name : List Nat) (hne : name ≠ [])
    (h : ∀ b ∈ name, isNameByte b) :
    trimSpaces (name ++ [58, 32]) = name ++ [58] := by
  obtain ⟨a, name', rfl⟩ := List.exists_cons_of_ne_nil hne
  have ha : isNameByte a = true := h a (by simp)
  have ha32 : (a == 32) = false := by
    refine beq_eq_false_iff_ne.mpr (fun hh => ?_)
    rw [hh] at ha
    exact absurd ha (by decide)
  unfold trimSpaces
  have hd1 : List.dropWhile (fun b => b == 32) ((a :: name') ++ [58, 32]) =
      (a :: name') ++ [58, 32] := by
    rw [List.cons_append, List.dropWhile_cons, ha32]
    rfl
  rw [hd1]
  have hrev : ((a :: name') ++ [58, 32]).reverse = 32 :: 58 :: (name'.reverse ++ [a]) := by
    simp
  rw [hrev]
  have hd2 : List.dropWhile (fun b => b == 32) (32 :: 58 :: (name'.reverse ++ [a])) =
      58 :: (name'.reverse ++ [a]) := rfl
  rw [hd2]
  simp

/-- When a single matched field row is the only remaining row and no field
is current, the lexer discards the accumulated value and yields just that
field, whatever the accumulator holds. -/
theorem lexLoop_single (fr n0 v0 cv : List Nat) (hfr : propRowRx fr = some (n0, v0)) :
    lexLoop [fr] [] cv [] = [(toLowerB n0, [v0])] := by
  obtain ⟨hfrne, hn0ne⟩ := propRowRx_some fr n0 v0 hfr
  rw [lexLoop, if_neg (by exact hfrne), hfr]
  have hstart : (if ([] : List Nat) ≠ [] then mapAppend ([] : LexMap) [] cv else ([] : LexMap)) = [] := by
    simp
  rw [hstart]
  show lexLoop [] (toLowerB n0) v0 [] = [(toLowerB n0, [v0])]
  rw [lexLoop, if_pos (toLowerB_ne_nil n0 hn0ne)]
  rfl

theorem map_except_ok {α β : Type} (f : α → β) (x : Except ParseErr α) (b : β)
    (h : x.map f = .ok b) : ∃ a, x = .ok a ∧ f a = b := by
  cases x with
  | error er => exact Except.noConfusion h
  | ok a =>
    refine ⟨a, rfl, ?_⟩
    injection h

theorem mapFind_mem (m : LexMap) (k : List Nat) (vs : List (List Nat))
    (h : mapFind m k = some vs) : (k, vs) ∈ m := by
  induction m with
  | nil => cases h
  | cons kv m ih =>
    obtain ⟨k', vs'⟩ := kv
    rw [mapFind] at h
    by_cases hk : k' = k
    · rw [if_pos hk] at h
      injection h with h'
      subst hk
      subst h'
      exact List.mem_cons_self _ _
    · rw [if_neg hk] at h
      exact List.mem_cons_of_mem _ (ih h)

theorem foldl_parseStep_error (l : LexMap) (er : ParseErr) :
    l.foldl parseStep (.error er) = .error er := by
  induction l with
  | nil => rfl
  | cons kv l ih =>
    rw [List.foldl_cons]
    exact ih

theorem foldl_parseStep_ok (l : LexMap) (acc : Except ParseErr Entry) (e : Entry)
    (h : l.foldl parseStep acc = .ok e) : ∃ e0, acc = .ok e0 := by
  cases acc with
  | ok e0 => exact ⟨e0, rfl⟩
  | error er =>
    rw [foldl_parseStep_error] at h
    cases h

theorem foldl_parseStep_fails (l : LexMap) (acc : Except ParseErr Entry)
    (k : List Nat) (vs : List (List Nat)) (hmem : (k, vs) ∈ l)
    (hfail : ∀ e, ∃ er, applyField e k vs = .error er) :
    ∃ er, l.foldl parseStep acc = .error er := by
  induction l generalizing acc with
  | nil => cases hmem
  | cons kv l ih =>
    rw [List.foldl_cons]
    rcases List.mem_cons.mp hmem with heq | hmem'
    · cases acc with
      | error er => exact ⟨er, foldl_parseStep_error l er⟩
      | ok e =>
        obtain ⟨er, her⟩ := hfail e
        have hstep : parseStep (.ok e) kv = .error er := by
          rw [← heq]
          exact her
        rw [hstep, foldl_parseStep_error]
        exact ⟨er, rfl⟩
    · exact ih (parseStep acc kv) hmem'

theorem parseDate_not_single (k : List Nat) (vs : List (List Nat)) (h : vs.length ≠ 1) :
    parseDate k vs = .error (.multiplicity k vs.length) := by
  cases vs with
  | nil => rfl
  | cons v t =>
    cases t with
    | nil => simp at h
    | cons w t' => rfl

theorem parseScript_not_single (k : List Nat) (vs : List (List Nat)) (h : vs.length ≠ 1) :
    parseScript k vs = .error (.multiplicity k vs.length) := by
  cases vs with
  | nil => rfl
  | cons v t =>
    cases t with
    | nil => simp at h
    | cons w t' => rfl

theorem parseString_not_single (k : List Nat) (vs : List (List Nat)) (h : vs.length ≠ 1) :
    parseString k vs = .error (.multiplicity k vs.length) := by
  cases vs with
  | nil => rfl
  | cons v t =>
    cases t with
    | nil => simp at h
    | cons w t' => rfl

theorem applyField_fails_not_single (k : List Nat) (vs : List (List Nat))
    (hk : k ∈ singleValuedKeys) (hlen : vs.length ≠ 1) (e : Entry) :
    ∃ er, applyField e k vs = .error er := by
  simp only [singleValuedKeys, List.mem_cons, List.not_mem_nil, or_false] at hk
  rcases hk with rfl | rfl | rfl | rfl | rfl | rfl | rfl | rfl | rfl | rfl
  · rw [show applyField e (strB "added") vs =
      (parseDate (strB "added") vs).map (fun d => { e with added := d }) from rfl,
      parseDate_not_single _ _ hlen]
    exact ⟨_, rfl⟩
  · rw [show applyField e (strB "deprecated") vs =
      (parseDate (strB "deprecated") vs).map (fun d => { e with deprecated := d }) from rfl,
      parseDate_not_single _ _ hlen]
    exact ⟨_, rfl⟩
  · rw [show applyField e (strB "comments") vs =
      (parseString (strB "comments") vs).map (fun v => { e with comments := v }) from rfl,
      parseString_not_single _ _ hlen]
    exact ⟨_, rfl⟩
  · rw [show applyField e (strB "macrolanguage") vs =
      (parseString (strB "macrolanguage") vs).map (fun v => { e with macroLanguage := v }) from
      rfl, parseString_not_single _ _ hlen]
    exact ⟨_, rfl⟩
  · rw [show applyField e (strB "preferred-value") vs =
      (parseString (strB "preferred-value") vs).map (fun v => { e with preferredValue := v }) from
      rfl, parseString_not_single _ _ hlen]
    exact ⟨_, rfl⟩
  · rw [show applyField e (strB "scope") vs =
      (parseString (strB "scope") vs).map (fun v => { e with scope := v }) from rfl,
      parseString_not_single _ _ hlen]
    exact ⟨_, rfl⟩
  · rw [show applyField e (strB "subtag") vs =
      (parseString (strB "subtag") vs).map (fun v => { e with subtag := v }) from rfl,
      parseString_not_single _ _ hlen]
    exact ⟨_, rfl⟩
  · rw [show applyField e (strB "suppress-script") vs =
      (parseScript (strB "suppress-script") vs).map (fun s => { e with suppressScript := s }) from
      rfl, parseScript_not_single _ _ hlen]
    exact ⟨_, rfl⟩
  · rw [show applyField e (strB "tag") vs =
      (parseString (strB "tag") vs).map (fun v => { e with tag := v }) from rfl,
      parseString_not_single _ _ hlen]
    exact ⟨_, rfl⟩
  · rw [show applyField e (strB "type") vs =
      (parseString (strB "type") vs).map (fun v => { e with typ := v }) from rfl,
      parseString_not_single _ _ hlen]
    exact ⟨_, rfl⟩

theorem applyField_unknown (e : Entry) (k : List Nat) (vs : List (List Nat))
    (hk : k ∉ recognizedKeys) :
    applyField e k vs = .error (.unknownField k) := by
  simp only [recognizedKeys, List.mem_cons, List.not_mem_nil, or_false, not_or] at hk
  obtain ⟨n1, n2, n3, n4, n5, n6, n7, n8, n9, n10, n11, n12⟩ := hk
  unfold applyField
  rw [if_neg n1, if_neg n2, if_neg n3, if_neg n4, if_neg n5, if_neg n6, if_neg n7,
    if_neg n8, if_neg n9, if_neg n10, if_neg n11, if_neg n12]

theorem applyField_ok_key (e e' : Entry) (k : List Nat) (vs : List (List Nat))
    (h : applyField e k vs = .ok e') : k ∈ recognizedKeys := by
  by_contra hk
  rw [applyField_unknown e k vs hk] at h
  exact Except.noConfusion h

set_option maxHeartbeats 2000000 in
theorem applyField_ok_preserve (e e' : Entry) (k : List Nat) (vs : List (List Nat))
    (h : applyField e k vs = .ok e') :
    (∀ k2, k2 ≠ k → scalarField k2 e' = scalarField k2 e) ∧
    (k ≠ strB "description" → e'.description = e.description) ∧
    (k ≠ strB "prefix" → e'.prefixes = e.prefixes) := by
  have hk := applyField_ok_key e e' k vs h
  simp only [recognizedKeys, List.mem_cons, List.not_mem_nil, or_false] at hk
  rcases hk with rfl | rfl | rfl | rfl | rfl | rfl | rfl | rfl | rfl | rfl | rfl | rfl
  · rw [show applyField e (strB "added") vs =
      (parseDate (strB "added") vs).map (fun d => { e with added := d }) from rfl] at h
    obtain ⟨w, hw, rfl⟩ := map_except_ok _ _ _ h
    clear h hw
    refine ⟨fun k2 hk2 => ?_, fun _ => rfl, fun _ => rfl⟩
    unfold scalarField
    split_ifs <;> rfl
  · rw [show applyField e (strB "comments") vs =
      (parseString (strB "comments") vs).map (fun v => { e with comments := v }) from rfl] at h
    obtain ⟨w, hw, rfl⟩ := map_except_ok _ _ _ h
    clear h hw
    refine ⟨fun k2 hk2 => ?_, fun _ => rfl, fun _ => rfl⟩
    unfold scalarField
    split_ifs <;> first | rfl | simp_all
  · rw [show applyField e (strB "deprecated") vs =
      (parseDate (strB "deprecated") vs).map (fun d => { e with deprecated := d }) from rfl] at h
    obtain ⟨w, hw, rfl⟩ := map_except_ok _ _ _ h
    clear h hw
    refine ⟨fun k2 hk2 => ?_, fun _ => rfl, fun _ => rfl⟩
    unfold scalarField
    split_ifs <;> rfl
  · rw [show applyField e (strB "description") vs =
      .ok { e with description := vs } from rfl] at h
    injection h with hinj
    subst hinj
    refine ⟨fun k2 hk2 => ?_, fun hk => absurd rfl hk, fun _ => rfl⟩
    unfold scalarField
    split_ifs <;> rfl
  · rw [show applyField e (strB "macrolanguage") vs =
      (parseString (strB "macrolanguage") vs).map
        (fun v => { e with macroLanguage := v }) from rfl] at h
    obtain ⟨w, hw, rfl⟩ := map_except_ok _ _ _ h
    clear h hw
    refine ⟨fun k2 hk2 => ?_, fun _ => rfl, fun _ => rfl⟩
    unfold scalarField
    split_ifs <;> first | rfl | simp_all
  · rw [show applyField e (strB "preferred-value") vs =
      (parseString (strB "preferred-value") vs).map
        (fun v => { e with preferredValue := v }) from rfl] at h
    obtain ⟨w, hw, rfl⟩ := map_except_ok _ _ _ h
    clear h hw
    refine ⟨fun k2 hk2 => ?_, fun _ => rfl, fun _ => rfl⟩
    unfold scalarField
    split_ifs <;> first | rfl | simp_all
  · rw [show applyField e (strB "prefix") vs =
      .ok { e with prefixes := vs } from rfl] at h
    injection h with hinj
    subst hinj
    refine ⟨fun k2 hk2 => ?_, fun _ => rfl, fun hk => absurd rfl hk⟩
    unfold scalarField
    split_ifs <;> rfl
  · rw [show applyField e (strB "scope") vs =
      (parseString (strB "scope") vs).map (fun v => { e with scope := v }) from rfl] at h
    obtain ⟨w, hw, rfl⟩ := map_except_ok _ _ _ h
    clear h hw
    refine ⟨fun k2 hk2 => ?_, fun _ => rfl, fun _ => rfl⟩
    unfold scalarField
    split_ifs <;> first | rfl | simp_all
  · rw [show applyField e (strB "subtag") vs =
      (parseString (strB "subtag") vs).map (fun v => { e with subtag := v }) from rfl] at h
    obtain ⟨w, hw, rfl⟩ := map_except_ok _ _ _ h
    clear h hw
    refine ⟨fun k2 hk2 => ?_, fun _ => rfl, fun _ => rfl⟩
    unfold scalarField
    split_ifs <;> first | rfl | simp_all
  · rw [show applyField e (strB "suppress-script") vs =
      (parseScript (strB "suppress-script") vs).map
        (fun s => { e with suppressScript := s }) from rfl] at h
    obtain ⟨w, hw, rfl⟩ := map_except_ok _ _ _ h
    clear h hw
    refine ⟨fun k2 hk2 => ?_, fun _ => rfl, fun _ => rfl⟩
    unfold scalarField
    split_ifs <;> rfl
  · rw [show applyField e (strB "tag") vs =
      (parseString (strB "tag") vs).map (fun v => { e with tag := v }) from rfl] at h
    obtain ⟨w, hw, rfl⟩ := map_except_ok _ _ _ h
    clear h hw
    refine ⟨fun k2 hk2 => ?_, fun _ => rfl, fun _ => rfl⟩
    unfold scalarField
    split_ifs <;> first | rfl | simp_all
  · rw [show applyField e (strB "type") vs =
      (parseString (strB "type") vs).map (fun v => { e with typ := v }) from rfl] at h
    obtain ⟨w, hw, rfl⟩ := map_except_ok _ _ _ h
    clear h hw
    refine ⟨fun k2 hk2 => ?_, fun _ => rfl, fun _ => rfl⟩
    unfold scalarField
    split_ifs <;> first | rfl | simp_all

theorem foldl_absent (l : LexMap) (e0 e : Entry)
    (h : l.foldl parseStep (.ok e0) = .ok e) :
    (∀ k, (∀ kv ∈ l, kv.1 ≠ k) → scalarField k e = scalarField k e0) ∧
    ((∀ kv ∈ l, kv.1 ≠ strB "description") → e.description = e0.description) ∧
    ((∀ kv ∈ l, kv.1 ≠ strB "prefix") → e.prefixes = e0.prefixes) := by
  induction l generalizing e0 with
  | nil =>
    injection h with h'
    subst h'
    exact ⟨fun _ _ => rfl, fun _ => rfl, fun _ => rfl⟩
  | cons kv l ih =>
    rw [List.foldl_cons] at h
    obtain ⟨e1, he1⟩ := foldl_parseStep_ok l _ e h
    rw [he1] at h
    have hap : applyField e0 kv.1 kv.2 = .ok e1 := he1
    obtain ⟨p1, p2, p3⟩ := applyField_ok_preserve e0 e1 kv.1 kv.2 hap
    obtain ⟨q1, q2, q3⟩ := ih e1 h
    refine ⟨?_, ?_, ?_⟩
    · intro k hk
      rw [q1 k (fun kv' h' => hk kv' (List.mem_cons_of_mem _ h')),
        p1 k (Ne.symm (hk kv (List.mem_cons_self _ _)))]
    · intro hk
      rw [q2 (fun kv' h' => hk kv' (List.mem_cons_of_mem _ h')),
        p2 (hk kv (List.mem_cons_self _ _))]
    · intro hk
      rw [q3 (fun kv' h' => hk kv' (List.mem_cons_of_mem _ h')),
        p3 (hk kv (List.mem_cons_self _ _))]

theorem keys_nodup_cons (kv : List Nat × List (List Nat)) (l : LexMap)
    (h : ((kv :: l).map Prod.fst).Nodup) :
    kv.1 ∉ l.map Prod.fst ∧ (l.map Prod.fst).Nodup := by
  rw [List.map_cons, List.nodup_cons] at h
  exact h

theorem scalar_set_applyField (k v : List Nat) (e0 e1 : Entry)
    (hk : k ∈ scalarStringKeys) (hap : applyField e0 k [v] = .ok e1) :
    scalarField k e1 = some v := by
  simp only [scalarStringKeys, List.mem_cons, List.not_mem_nil, or_false] at hk
  rcases hk with rfl | rfl | rfl | rfl | rfl | rfl | rfl
  all_goals injection hap with h'
  all_goals subst h'
  all_goals rfl

theorem foldl_scalar_set (l : LexMap) (e0 e : Entry) (k v : List Nat)
    (hnd : (l.map Prod.fst).Nodup) (hk : k ∈ scalarStringKeys)
    (hmem : (k, [v]) ∈ l) (h : l.foldl parseStep (.ok e0) = .ok e) :
    scalarField k e = some v := by
  induction l generalizing e0 with
  | nil => cases hmem
  | cons kv l ih =>
    rw [List.foldl_cons] at h
    obtain ⟨e1, he1⟩ := foldl_parseStep_ok l _ e h
    rw [he1] at h
    have hap : applyField e0 kv.1 kv.2 = .ok e1 := he1
    rcases List.mem_cons.mp hmem with heq | hmem'
    · subst heq
      have habs : ∀ kv' ∈ l, kv'.1 ≠ k := by
        intro kv' h' heq'
        have hm : kv'.1 ∈ l.map Prod.fst := List.mem_map_of_mem Prod.fst h'
        rw [heq'] at hm
        exact (keys_nodup_cons _ _ hnd).1 hm
      rw [(foldl_absent l e1 e h).1 k habs]
      exact scalar_set_applyField k v e0 e1 hk hap
    · exact ih e1 (keys_nodup_cons _ _ hnd).2 hmem' h

theorem foldl_description_set (l : LexMap) (e0 e : Entry) (vs : List (List Nat))
    (hnd : (l.map Prod.fst).Nodup) (hmem : (strB "description", vs) ∈ l)
    (h : l.foldl parseStep (.ok e0) = .ok e) : e.description = vs := by
  induction l generalizing e0 with
  | nil => cases hmem
  | cons kv l ih =>
    rw [List.foldl_cons] at h
    obtain ⟨e1, he1⟩ := foldl_parseStep_ok l _ e h
    rw [he1] at h
    have hap : applyField e0 kv.1 kv.2 = .ok e1 := he1
    rcases List.mem_cons.mp hmem with heq | hmem'
    · subst heq
      have habs : ∀ kv' ∈ l, kv'.1 ≠ strB "description" := by
        intro kv' h' heq'
        have hm : kv'.1 ∈ l.map Prod.fst := List.mem_map_of_mem Prod.fst h'
        rw [heq'] at hm
        exact (keys_nodup_cons _ _ hnd).1 hm
      rw [(foldl_absent l e1 e h).2.1 habs]
      injection hap with h'
      rw [← h']
    · exact ih e1 (keys_nodup_cons _ _ hnd).2 hmem' h

theorem foldl_prefix_set (l : LexMap) (e0 e : Entry) (vs : List (List Nat))
    (hnd : (l.map Prod.fst).Nodup) (hmem : (strB "prefix", vs) ∈ l)
    (h : l.foldl parseStep (.ok e0) = .ok e) : e.prefixes = vs := by
  induction l generalizing e0 with
  | nil => cases hmem
  | cons kv l ih =>
    rw [List.foldl_cons] at h
    obtain ⟨e1, he1⟩ := foldl_parseStep_ok l _ e h
    rw [he1] at h
    have hap : applyField e0 kv.1 kv.2 = .ok e1 := he1
    rcases List.mem_cons.mp hmem with heq | hmem'
    · subst heq
      have habs : ∀ kv' ∈ l, kv'.1 ≠ strB "prefix" := by
        intro kv' h' heq'
        have hm : kv'.1 ∈ l.map Prod.fst := List.mem_map_of_mem Prod.fst h'
        rw [heq'] at hm
        exact (keys_nodup_cons _ _ hnd).1 hm
      rw [(foldl_absent l e1 e h).2.2 habs]
      injection hap with h'
      rw [← h']
    · exact ih e1 (keys_nodup_cons _ _ hnd).2 hmem' h

theorem parseDate_isOk (k : List Nat) (vs : List (List Nat)) :
    (∃ d, parseDate k vs = .ok d) ↔
      ∃ v, vs = [v] ∧ (goParseDate v).isSome = true := by
  cases vs with
  | nil =>
    constructor
    · rintro ⟨d, hd⟩
      exact Except.noConfusion hd
    · rintro ⟨v, hv, -⟩
      exact List.noConfusion hv
  | cons v t =>
    cases t with
    | nil =>
      have hred : parseDate k [v] =
          (match goParseDate v with
            | some d => Except.ok d
            | none => Except.error (.malformedDate k v)) := rfl
      cases hg : goParseDate v with
      | none =>
        constructor
        · rintro ⟨d, hd⟩
          rw [hred, hg] at hd
          exact Except.noConfusion hd
        · rintro ⟨v', hv', hsome⟩
          injection hv' with hv''
          subst hv''
          rw [hg] at hsome
          exact Bool.noConfusion hsome
      | some d =>
        constructor
        · intro
          exact ⟨v, rfl, by rw [hg]; rfl⟩
        · intro
          refine ⟨d, ?_⟩
          rw [hred, hg]
    | cons w t' =>
      constructor
      · rintro ⟨d, hd⟩
        exact Except.noConfusion hd
      · rintro ⟨v', hv', -⟩
        injection hv' with h1 h2
        exact List.noConfusion h2

/-- C1, counterexample: a first block holding a file-date field and a
subtag field parses successfully (the extra field is ignored), while the
claim's reading of header parsing rejects it as a malformed header. -/
theorem c1_counterexample :
    (∃ r, initRegistry [strB "file-date: 2022-08-08" ++ 10 :: strB "subtag: cu"] =
      .ok r) ∧
    initRegistryClaim [strB "file-date: 2022-08-08" ++ 10 :: strB "subtag: cu"] =
      .error .malformedHeader :=
  ⟨⟨⟨⟨2022, 8, 8⟩⟩, rfl⟩, rfl⟩

/-- C1, amended: parsing the first block succeeds exactly when its lexed
mapping contains the file-date field with a single raw value that parses
as a calendar date; a header lacking file-date is fatal, but fields other
than file-date in the header block are ignored, not rejected. -/
theorem c1_header_parse (first : List Nat) (rest : List (List Nat)) :
    (∃ r, initRegistry (first :: rest) = .ok r) ↔
      ∃ v, mapFind (lexBlock first) (strB "file-date") = some [v] ∧
        (goParseDate v).isSome = true := by
  cases hf : mapFind (lexBlock first) (strB "file-date") with
  | none =>
    have hred : initRegistry (first :: rest) = .error .malformedHeader := by
      rw [show initRegistry (first :: rest) =
        (match mapFind (lexBlock first) (strB "file-date") with
          | none => (Except.error .malformedHeader : Except ParseErr Registry)
          | some fd => (parseDate (strB "file-date") fd).map (fun d => ⟨d⟩)) from rfl, hf]
    rw [hred]
    constructor
    · rintro ⟨r, hr⟩
      exact Except.noConfusion hr
    · rintro ⟨v, hv, -⟩
      exact Option.noConfusion hv
  | some fd =>
    have hred : initRegistry (first :: rest) =
        (parseDate (strB "file-date") fd).map (fun d => ⟨d⟩) := by
      rw [show initRegistry (first :: rest) =
        (match mapFind (lexBlock first) (strB "file-date") with
          | none => (Except.error .malformedHeader : Except ParseErr Registry)
          | some fd => (parseDate (strB "file-date") fd).map (fun d => ⟨d⟩)) from rfl, hf]
    rw [hred]
    constructor
    · rintro ⟨r, hr⟩
      obtain ⟨d, hd, -⟩ := map_except_ok _ _ _ hr
      obtain ⟨v, hv, hsome⟩ := (parseDate_isOk (strB "file-date") fd).mp ⟨d, hd⟩
      exact ⟨v, by rw [hv], hsome⟩
    · rintro ⟨v, hv, hsome⟩
      injection hv with hv'
      subst hv'
      obtain ⟨d, hd⟩ := (parseDate_isOk (strB "file-date") [v]).mpr ⟨v, rfl, hsome⟩
      exact ⟨⟨d⟩, by rw [hd]; rfl⟩

/-- C2, counterexample: the 4-byte value of the two UTF-8 bytes of an
e-acute repeated twice (two characters, neither in the ASCII range) is
accepted by the Script decoder, while the claim's reading (exactly 4
characters, restricted to the ASCII range) rejects it. -/
theorem c2_counterexample :
    (∃ s, parseScript (strB "suppress-script") [[195, 169, 195, 169]] = .ok s) ∧
    parseScriptClaim (strB "suppress-script") [[195, 169, 195, 169]] =
      .error (.invalidScript (strB "suppress-script") [195, 169, 195, 169]) :=
  ⟨⟨⟨195, 169, 195, 169⟩, rfl⟩, rfl⟩

/-- C2, amended: the Script decoder succeeds exactly when the field has
one raw value of byte length exactly 4 — no check restricts the bytes to
the ASCII range; the 4-byte value Latf decodes successfully and the 3-byte
value Lat fails with the invalid-script condition. -/
theorem c2_script_decoder (k : List Nat) (vs : List (List Nat)) :
    ((∃ s, parseScript k vs = .ok s) ↔ ∃ v, vs = [v] ∧ v.length = 4) ∧
    parseScript k [strB "Latf"] = .ok ⟨76, 97, 116, 102⟩ ∧
    parseScript k [strB "Lat"] = .error (.invalidScript k (strB "Lat")) := by
  refine ⟨⟨?_, ?_⟩, rfl, rfl⟩
  · rintro ⟨s, hs⟩
    cases vs with
    | nil => exact Except.noConfusion hs
    | cons v t =>
      cases t with
      | nil =>
        refine ⟨v, rfl, ?_⟩
        cases v with
        | nil => exact Except.noConfusion hs
        | cons a v1 =>
          cases v1 with
          | nil => exact Except.noConfusion hs
          | cons b v2 =>
            cases v2 with
            | nil => exact Except.noConfusion hs
            | cons c v3 =>
              cases v3 with
              | nil => exact Except.noConfusion hs
              | cons d v4 =>
                cases v4 with
                | nil => rfl
                | cons x v5 => exact Except.noConfusion hs
      | cons w t' => exact Except.noConfusion hs
  · rintro ⟨v, rfl, hlen⟩
    cases v with
    | nil => simp at hlen
    | cons a v1 =>
      cases v1 with
      | nil => simp at hlen
      | cons b v2 =>
        cases v2 with
        | nil => simp at hlen
        | cons c v3 =>
          cases v3 with
          | nil => simp at hlen
          | cons d v4 =>
            cases v4 with
            | nil => exact ⟨⟨a, b, c, d⟩, rfl⟩
            | cons x v5 => simp at hlen

/-- C3, counterexample: on the input consisting of the letter a, a
separator, and the letter b, the splitter does not produce the blocks the
claim describes — the block before the separator keeps the separator's
leading newline, so the output differs from the strictly-between-separators
splitting. -/
theorem c3_counterexample :
    loadBlocks (strB "a" ++ 10 :: strB "%%" ++ 10 :: strB "b") ≠
      splitClaim (strB "a" ++ 10 :: strB "%%" ++ 10 :: strB "b") := by
  rw [loadBlocks_sep _ 1 (by decide), loadBlocks_none _ (by decide),
    splitClaim_sep _ 1 (by decide), splitClaim_none _ (by decide)]
  decide

/-- C3, amended: the splitter produces the blocks obtained by splitting on
the separator as the claim describes, except that every block before a
separator additionally keeps the separator's leading newline as its final
byte; the trailing remainder after the last separator (or the whole input
when no separator occurs) is emitted unchanged as the final block. -/
theorem c3_block_splitter (data : List Nat) :
    loadBlocks data = appendNLButLast (splitClaim data) :=
  loadBlocks_eq_appendNL data

/-- C4: for every lexed record block, each single-valued field (added,
deprecated, comments, macrolanguage, preferred-value, scope, subtag,
suppress-script, tag, type) whose raw-value count is not exactly 1 makes
the record parser fail fatally; and every scalar string field holding
exactly one raw value is passed through unchanged into the corresponding
field of the resulting record. -/
theorem c4_single_value_fields (lexed : LexMap) :
    (∀ k vs, k ∈ singleValuedKeys → mapFind lexed k = some vs → vs.length ≠ 1 →
      ∃ er, parseBlock lexed = .error er) ∧
    (∀ k v e, (lexed.map Prod.fst).Nodup → k ∈ scalarStringKeys →
      mapFind lexed k = some [v] → parseBlock lexed = .ok e →
      scalarField k e = some v) := by
  constructor
  · intro k vs hk hfind hlen
    exact foldl_parseStep_fails lexed _ k vs (mapFind_mem lexed k vs hfind)
      (applyField_fails_not_single k vs hk hlen)
  · intro k v e hnd hk hfind hok
    exact foldl_scalar_set lexed Entry.zero e k v hnd hk (mapFind_mem _ _ _ hfind) hok

/-- C4 witness: a block with two subtag values fails, and a block with one
type value passes the string through into the type field. -/
theorem c4_single_value_fields_witness :
    (∃ er, parseBlock [(strB "subtag", [strB "cu", strB "sh"])] = .error er) ∧
    scalarField (strB "type") { Entry.zero with typ := strB "language" } =
      some (strB "language") := by
  constructor
  · exact (c4_single_value_fields [(strB "subtag", [strB "cu", strB "sh"])]).1
      (strB "subtag") [strB "cu", strB "sh"] (by decide) (by decide) (by decide)
  · exact (c4_single_value_fields [(strB "type", [strB "language"])]).2
      (strB "type") (strB "language") { Entry.zero with typ := strB "language" }
      (by decide) (by decide) (by decide) rfl

/-- C5, counterexample: on the block made of the field line with name a
and value b followed by the continuation line of a tab and the letter c,
the lexer keeps the trailing tab of the continuation line (Go trims only
space bytes), so its output differs from the claimed
whitespace-trimmed lexing. -/
theorem c5_counterexample :
    lexBlock (strB "a: b" ++ 10 :: [9, 99]) ≠ lexBlockWS (strB "a: b" ++ 10 :: [9, 99]) := by
  decide

/-- C5, amended: every continuation line (a non-empty line not matching
the field-line pattern, seen while a field is current) is trimmed of
leading and trailing space bytes — not of all whitespace — and appended to
the accumulated value with one separating space; a block of one field line
followed by continuation lines therefore lexes to that field bound to the
single value of the field line's remainder followed by the space-joined
trimmed continuations. -/
theorem c5_continuation_lines (fr n0 v0 : List Nat) (cs : List (List Nat))
    (hfr : propRowRx fr = some (n0, v0)) (hfr10 : 10 ∉ fr)
    (hcs : ∀ c ∈ cs, c ≠ [] ∧ propRowRx c = none ∧ 10 ∉ c) :
    (∀ row rest ck cv m, row ≠ [] → propRowRx row = none → ck ≠ [] →
      lexLoop (row :: rest) ck cv m = lexLoop rest ck (cv ++ 32 :: trimSpaces row) m) ∧
    lexBlock (joinNL (fr :: cs)) = [(toLowerB n0, [v0 ++ contJoin cs])] := by
  constructor
  · intro row rest ck cv m hrow hnomatch _
    rw [lexLoop, if_neg (by exact hrow), hnomatch]
  · obtain ⟨hfrne, hn0ne⟩ := propRowRx_some fr n0 v0 hfr
    rw [lexBlock, splitNL_joinNL _ (by simp) ?rows]
    case rows =>
      intro r hr
      rcases List.mem_cons.mp hr with rfl | hr'
      · exact hfr10
      · exact (hcs r hr').2.2
    rw [lexLoop, if_neg (by exact hfrne), hfr]
    have hstart : (if ([] : List Nat) ≠ [] then mapAppend ([] : LexMap) [] [] else ([] : LexMap)) = [] := by
      simp
    rw [hstart]
    show lexLoop cs (toLowerB n0) v0 [] = [(toLowerB n0, [v0 ++ contJoin cs])]
    rw [lexLoop_conts cs (toLowerB n0) v0 [] (toLowerB_ne_nil n0 hn0ne)
      (fun c hc => ⟨(hcs c hc).1, (hcs c hc).2.1⟩)]
    rfl

/-- C5 witness: a comments field line followed by one space-indented
continuation line lexes to the joined single value. -/
theorem c5_continuation_lines_witness :
    lexBlock (joinNL [strB "comments: x", strB "  more"]) =
      [(strB "comments", [strB "x more"])] := by
  have h := c5_continuation_lines (strB "comments: x") (strB "comments") (strB "x")
    [strB "  more"] (by decide) (by decide) (by decide)
  exact h.2.trans (by decide)

/-- C6, counterexample: the zero-valued added field of an entry is
rendered, not elided: the yaml tag of `Added` carries no omitempty. -/
theorem c6_counterexample :
    Entry.zero.added = Date.zero ∧ renders Entry.zero (strB "added") = true :=
  ⟨rfl, rfl⟩

/-- C6, amended: for every entry, each field except added is rendered
exactly when its value is non-zero (non-empty string or list, non-zero
date or script); the added field is rendered unconditionally, even when
zero-valued. -/
theorem c6_field_elision (e : Entry) :
    renders e (strB "added") = true ∧
    (renders e (strB "comments") = true ↔ e.comments ≠ []) ∧
    (renders e (strB "deprecated") = true ↔ e.deprecated ≠ Date.zero) ∧
    (renders e (strB "description") = true ↔ e.description ≠ []) ∧
    (renders e (strB "macro-language") = true ↔ e.macroLanguage ≠ []) ∧
    (renders e (strB "preferred-value") = true ↔ e.preferredValue ≠ []) ∧
    (renders e (strB "prefix") = true ↔ e.prefixes ≠ []) ∧
    (renders e (strB "scope") = true ↔ e.scope ≠ []) ∧
    (renders e (strB "subtag") = true ↔ e.subtag ≠ []) ∧
    (renders e (strB "suppress-script") = true ↔ e.suppressScript ≠ Script.zero) ∧
    (renders e (strB "tag") = true ↔ e.tag ≠ []) ∧
    (renders e (strB "type") = true ↔ e.typ ≠ []) := by
  refine ⟨rfl, ?_, ?_, ?_, ?_, ?_, ?_, ?_, ?_, ?_, ?_, ?_⟩
  · show (e.comments != []) = true ↔ e.comments ≠ []
    exact bne_iff_ne
  · show (!e.deprecated.isZero) = true ↔ e.deprecated ≠ Date.zero
    simp [Date.isZero]
  · show (e.description != []) = true ↔ e.description ≠ []
    exact bne_iff_ne
  · show (e.macroLanguage != []) = true ↔ e.macroLanguage ≠ []
    exact bne_iff_ne
  · show (e.preferredValue != []) = true ↔ e.preferredValue ≠ []
    exact bne_iff_ne
  · show (e.prefixes != []) = true ↔ e.prefixes ≠ []
    exact bne_iff_ne
  · show (e.scope != []) = true ↔ e.scope ≠ []
    exact bne_iff_ne
  · show (e.subtag != []) = true ↔ e.subtag ≠ []
    exact bne_iff_ne
  · show (!e.suppressScript.isZero) = true ↔ e.suppressScript ≠ Script.zero
    simp [Script.isZero]
  · show (e.tag != []) = true ↔ e.tag ≠ []
    exact bne_iff_ne
  · show (e.typ != []) = true ↔ e.typ ≠ []
    exact bne_iff_ne

/-- C7, counterexample: the Block Splitter applied to empty input does not
yield zero blocks. -/
theorem c7_counterexample : loadBlocks [] ≠ [] := by
  rw [loadBlocks_none [] rfl]
  simp

/-- C7, amended: the Block Splitter applied to empty input yields exactly
one block, the empty block, because the scanner's final-token path emits
the (empty) remainder as a token. -/
theorem c7_empty_input : loadBlocks [] = [[]] :=
  loadBlocks_none [] rfl

/-- C8: the two-line block of a description of Lojban followed by a
description of Lojban2 parses to the record whose description list is
exactly those two strings in order; and in general the description and
prefix fields of a parsed record are the lexer's raw-value lists passed
through unchanged. -/
theorem c8_list_decoder :
    parseBlock (lexBlock (strB "description: Lojban" ++ 10 :: strB "description: Lojban2")) =
      .ok { Entry.zero with description := [strB "Lojban", strB "Lojban2"] } ∧
    (∀ lexed vs e, (lexed.map Prod.fst).Nodup →
      mapFind lexed (strB "description") = some vs →
      parseBlock lexed = .ok e → e.description = vs) ∧
    (∀ lexed vs e, (lexed.map Prod.fst).Nodup →
      mapFind lexed (strB "prefix") = some vs →
      parseBlock lexed = .ok e → e.prefixes = vs) := by
  refine ⟨rfl, ?_, ?_⟩
  · intro lexed vs e hnd hfind hok
    exact foldl_description_set lexed Entry.zero e vs hnd (mapFind_mem _ _ _ hfind) hok
  · intro lexed vs e hnd hfind hok
    exact foldl_prefix_set lexed Entry.zero e vs hnd (mapFind_mem _ _ _ hfind) hok

/-- C8 witness: the pass-through statements applied at the Lojban block
and at a two-valued prefix mapping. -/
theorem c8_list_decoder_witness :
    ({ Entry.zero with description := [strB "Lojban", strB "Lojban2"] } : Entry).description =
      [strB "Lojban", strB "Lojban2"] ∧
    ({ Entry.zero with prefixes := [strB "ar", strB "fr"] } : Entry).prefixes =
      [strB "ar", strB "fr"] := by
  constructor
  · exact c8_list_decoder.2.1
      (lexBlock (strB "description: Lojban" ++ 10 :: strB "description: Lojban2"))
      [strB "Lojban", strB "Lojban2"] _ (by decide) (by decide) rfl
  · exact c8_list_decoder.2.2 [(strB "prefix", [strB "ar", strB "fr"])]
      [strB "ar", strB "fr"] _ (by decide) (by decide) rfl

/-- C9: a line made of a field name, a colon and an empty remainder (with
or without the trailing space) does not match the field-line pattern,
because the pattern demands at least one character after the colon-space;
inside a block such a line is treated as a continuation of the current
field (trimmed and space-joined), and when it precedes every field line
its content is silently discarded. -/
theorem c9_empty_remainder_line (name fr n0 v0 : List Nat)
    (hname : name ≠ []) (hbytes : ∀ b ∈ name, isNameByte b)
    (hfr : propRowRx fr = some (n0, v0)) (hfr10 : 10 ∉ fr) :
    propRowRx (name ++ [58]) = none ∧
    propRowRx (name ++ [58, 32]) = none ∧
    lexBlock (fr ++ 10 :: (name ++ [58, 32])) =
      [(toLowerB n0, [v0 ++ 32 :: (name ++ [58])])] ∧
    lexBlock ((name ++ [58, 32]) ++ 10 :: fr) = lexBlock fr := by
  have hcolon : propRowRx (name ++ [58]) = none := by
    obtain ⟨htw, hdw⟩ := takeWhile_name_run name [] hbytes
    unfold propRowRx
    rw [if_neg]
    rintro ⟨-, h2, -⟩
    rw [hdw] at h2
    cases h2
  have hcolonsp : propRowRx (name ++ [58, 32]) = none := by
    obtain ⟨htw, hdw⟩ := takeWhile_name_run name [32] hbytes
    unfold propRowRx
    rw [if_neg]
    rintro ⟨-, -, h3⟩
    rw [hdw] at h3
    exact h3 rfl
  have hcont10 : 10 ∉ name ++ [58, 32] := by
    intro hmem
    rcases List.mem_append.mp hmem with hn | hn
    · exact absurd (hbytes 10 hn) (by decide)
    · simp at hn
  have hcontne : name ++ [58, 32] ≠ [] := by simp
  obtain ⟨hfrne, hn0ne⟩ := propRowRx_some fr n0 v0 hfr
  refine ⟨hcolon, hcolonsp, ?_, ?_⟩
  · rw [lexBlock, splitNL_append fr _ hfr10, splitNL_no_newline _ hcont10]
    rw [lexLoop, if_neg (by exact hfrne), hfr]
    have hstart : (if ([] : List Nat) ≠ [] then mapAppend ([] : LexMap) [] [] else ([] : LexMap)) = [] := by
      simp
    rw [hstart]
    show lexLoop [name ++ [58, 32]] (toLowerB n0) v0 [] =
      [(toLowerB n0, [v0 ++ 32 :: (name ++ [58])])]
    rw [lexLoop_conts [name ++ [58, 32]] (toLowerB n0) v0 [] (toLowerB_ne_nil n0 hn0ne)
      (by intro c hc; rw [List.mem_singleton] at hc; subst hc; exact ⟨hcontne, hcolonsp⟩)]
    rw [show contJoin [name ++ [58, 32]] = 32 :: trimSpaces (name ++ [58, 32]) from by
      simp [contJoin]]
    rw [trimSpaces_name_colon name hname hbytes]
    rfl
  · rw [lexBlock, splitNL_append _ _ hcont10]
    rw [lexLoop, if_neg (by exact hcontne), hcolonsp]
    rw [lexBlock, splitNL_no_newline fr hfr10]
    show lexLoop [fr] [] ([] ++ 32 :: trimSpaces (name ++ [58, 32])) [] = lexLoop [fr] [] [] []
    rw [lexLoop_single fr n0 v0 _ hfr, lexLoop_single fr n0 v0 [] hfr]

/-- C9 witness: the concrete line of the word Prefix, a colon and a
trailing space, paired with a subtag field line. -/
theorem c9_empty_remainder_line_witness :
    propRowRx (strB "Prefix" ++ [58]) = none ∧
    propRowRx (strB "Prefix" ++ [58, 32]) = none ∧
    lexBlock (strB "subtag: cu" ++ 10 :: (strB "Prefix" ++ [58, 32])) =
      [(strB "subtag", [strB "cu Prefix:"])] ∧
    lexBlock ((strB "Prefix" ++ [58, 32]) ++ 10 :: strB "subtag: cu") =
      lexBlock (strB "subtag: cu") := by
  have h := c9_empty_remainder_line (strB "Prefix") (strB "subtag: cu") (strB "subtag")
    (strB "cu") (by decide) (by decide) (by decide) (by decide)
  exact ⟨h.1, h.2.1, h.2.2.1.trans (by decide), h.2.2.2⟩

/-- C10: parse-then-marshal on the suppress-script field is the identity
on every raw value of exactly 4 bytes. -/
theorem c10_script_roundtrip (v : List Nat) (h4 : v.length = 4)
    (hb : ∀ b ∈ v, b < 256) :
    (parseScript (strB "suppress-script") [v]).map Script.marshal = .ok v := by
  cases v with
  | nil => simp at h4
  | cons a v1 =>
    cases v1 with
    | nil => simp at h4
    | cons b v2 =>
      cases v2 with
      | nil => simp at h4
      | cons c v3 =>
        cases v3 with
        | nil => simp at h4
        | cons d v4 =>
          cases v4 with
          | cons x v5 => simp at h4
          | nil =>
            have ha : a % 256 = a := Nat.mod_eq_of_lt (hb a (by simp))
            have hb' : b % 256 = b := Nat.mod_eq_of_lt (hb b (by simp))
            have hc : c % 256 = c := Nat.mod_eq_of_lt (hb c (by simp))
            have hd : d % 256 = d := Nat.mod_eq_of_lt (hb d (by simp))
            show Except.ok (Script.marshal ⟨a, b, c, d⟩) = Except.ok [a, b, c, d]
            rw [show Script.marshal ⟨a, b, c, d⟩ = [a % 256, b % 256, c % 256, d % 256]
              from rfl, ha, hb', hc, hd]

/-- C10 witness: the concrete 4-byte value Latf round-trips. -/
theorem c10_script_roundtrip_witness :
    (parseScript (strB "suppress-script") [strB "Latf"]).map Script.marshal =
      .ok (strB "Latf") :=
  c10_script_roundtrip (strB "Latf") (by decide) (by decide)

end IanaRegistry
